import Mathlib

set_option linter.unusedVariables false

/-!
# Verification of `wavespectra.core.watershed3`

Shallow embedding of the watershed partitioning module
(`src/wavespectra/core/watershed3.py`) and proofs about it.

Conventions of the embedding:
* machine floats are modelled as exact rationals (`ℚ`); the two places where
  IEEE semantics matter (a division by zero producing `inf`/`NaN`, and the
  `NaN → int64` cast) are modelled explicitly and documented at the definition;
* NumPy arrays are Lean lists; a 2-D spectrum of shape `(nk, nth)` is a
  row-major `List (List ℚ)` and its flattened form has bin `n = ik * nth + ith`
  with `ik = n / nth` (frequency row) and `ith = n % nth` (direction column),
  exactly as `spectrum.flatten()` does;
* Python lists of bin indices keep their Python `int` type as `ℤ`.
-/

namespace Watershed

/-- Bins of a flattened `(nk, nth)` grid, addressed as in the source:
`ith = n % nth` (direction), `ik = n // nth` (frequency). Neighbour list for
one bin `n`, mirroring the loop body of `ptnghb` in the source: up/down in
frequency without wrap, left/right and the four diagonals with direction
wrap-around.  Results are Python ints (`ℤ`); each arithmetic expression is
kept literally as written in the source. -/
def ptnghbAt (nk nth n : ℕ) : List ℤ :=
  let ith := n % nth
  let ik := n / nth
  (if 0 < ik then [(n : ℤ) - nth] else [])
    ++ (if ik < nk - 1 then [(n : ℤ) + nth] else [])
    ++ (if 0 < ith then [(n : ℤ) - 1] else [(n : ℤ) - 1 + nth])
    ++ (if ith < nth - 1 then [(n : ℤ) + 1] else [(n : ℤ) + 1 - nth])
    ++ (if 0 < ik ∧ 0 < ith then [(n : ℤ) - nth - 1]
        else if 0 < ik ∧ ith = 0 then [(n : ℤ) - nth - 1 + nth] else [])
    ++ (if ik < nk - 1 ∧ 0 < ith then [(n : ℤ) + nth - 1]
        else if ik < nk - 1 ∧ ith = 0 then [(n : ℤ) + nth - 1 + nth] else [])
    ++ (if 0 < ik ∧ ith < nth - 1 then [(n : ℤ) - nth + 1]
        else if 0 < ik ∧ ith = nth - 1 then [(n : ℤ) - nth + 1 - nth] else [])
    ++ (if ik < nk - 1 ∧ ith < nth - 1 then [(n : ℤ) + nth + 1]
        else if ik < nk - 1 ∧ ith = nth - 1 then [(n : ℤ) + nth + 1 - nth] else [])

/-- `ptnghb(nk, nth)`: the list of neighbour lists for every bin of the grid. -/
def ptnghb (nk nth : ℕ) : List (List ℤ) :=
  (List.range (nk * nth)).map (ptnghbAt nk nth)

/-- Membership in a conditional singleton. -/
theorem mem_ite_singleton {c : Prop} [Decidable c] (x y : ℤ) :
    x ∈ (if c then [y] else ([] : List ℤ)) ↔ c ∧ x = y := by
  split <;> simp_all

/-- Membership in a two-way conditional singleton (the `if/elif` pattern of
the diagonal neighbours). -/
theorem mem_ite_ite_singleton {c d : Prop} [Decidable c] [Decidable d] (x y z : ℤ) :
    x ∈ (if c then [y] else if d then [z] else ([] : List ℤ)) ↔
      (c ∧ x = y) ∨ (¬c ∧ d ∧ x = z) := by
  by_cases hc : c <;> by_cases hd : d <;> simp_all

/-- Membership in a conditional pair of singletons (the `if/else` pattern of
the horizontal neighbours). -/
theorem mem_ite_pair {c : Prop} [Decidable c] (x y z : ℤ) :
    x ∈ (if c then [y] else [z]) ↔ (c ∧ x = y) ∨ (¬c ∧ x = z) := by
  by_cases hc : c <;> simp_all

theorem coord_div (nth ik ith : ℕ) (hth : ith < nth) : (ik * nth + ith) / nth = ik := by
  have hnth : 0 < nth := Nat.lt_of_le_of_lt (Nat.zero_le ith) hth
  rw [Nat.mul_comm, Nat.mul_add_div hnth, Nat.div_eq_of_lt hth, Nat.add_zero]

theorem coord_mod (nth ik ith : ℕ) (hth : ith < nth) : (ik * nth + ith) % nth = ith := by
  rw [Nat.mul_comm, Nat.mul_add_mod, Nat.mod_eq_of_lt hth]

theorem coord_lt (nk nth jk jth : ℕ) (hjk : jk < nk) (hjth : jth < nth) :
    jk * nth + jth < nk * nth := by
  calc jk * nth + jth < jk * nth + nth := by omega
    _ = (jk + 1) * nth := by ring
    _ ≤ nk * nth := Nat.mul_le_mul_right nth hjk

/-- `ptnghbAt` with the bin given in `(frequency row, direction column)`
coordinates: the `%`/`/` recover the coordinates and the body unfolds. -/
theorem ptnghbAt_coord (nk nth ik ith : ℕ) (hth : ith < nth) :
    ptnghbAt nk nth (ik * nth + ith) =
      (if 0 < ik then [(ik : ℤ) * nth + ith - nth] else [])
        ++ (if ik < nk - 1 then [(ik : ℤ) * nth + ith + nth] else [])
        ++ (if 0 < ith then [(ik : ℤ) * nth + ith - 1] else [(ik : ℤ) * nth + ith - 1 + nth])
        ++ (if ith < nth - 1 then [(ik : ℤ) * nth + ith + 1] else [(ik : ℤ) * nth + ith + 1 - nth])
        ++ (if 0 < ik ∧ 0 < ith then [(ik : ℤ) * nth + ith - nth - 1]
            else if 0 < ik ∧ ith = 0 then [(ik : ℤ) * nth + ith - nth - 1 + nth] else [])
        ++ (if ik < nk - 1 ∧ 0 < ith then [(ik : ℤ) * nth + ith + nth - 1]
            else if ik < nk - 1 ∧ ith = 0 then [(ik : ℤ) * nth + ith + nth - 1 + nth] else [])
        ++ (if 0 < ik ∧ ith < nth - 1 then [(ik : ℤ) * nth + ith - nth + 1]
            else if 0 < ik ∧ ith = nth - 1 then [(ik : ℤ) * nth + ith - nth + 1 - nth] else [])
        ++ (if ik < nk - 1 ∧ ith < nth - 1 then [(ik : ℤ) * nth + ith + nth + 1]
            else if ik < nk - 1 ∧ ith = nth - 1 then [(ik : ℤ) * nth + ith + nth + 1 - nth] else []) := by
  simp only [ptnghbAt, coord_div nth ik ith hth, coord_mod nth ik ith hth]
  push_cast
  rfl

theorem coord_lt_rev (nk nth ik ith : ℕ) (h : ik * nth + ith < nk * nth) : ik < nk := by
  by_contra hc
  have : nk * nth ≤ ik * nth := Nat.mul_le_mul_right nth (by omega)
  omega

theorem exists_coords (nth a : ℕ) (hnth : 0 < nth) :
    ∃ ik ith, ith < nth ∧ a = ik * nth + ith :=
  ⟨a / nth, a % nth, Nat.mod_lt _ hnth, by rw [Nat.mul_comm, Nat.div_add_mod]⟩

set_option maxHeartbeats 1000000 in
/-- The neighbour relation built by `ptnghb` is symmetric: if bin `b` appears
in the neighbour list of bin `a` then `a` appears in the neighbour list of
`b`.  (This is unconditional: the frequency boundaries only remove links in a
symmetric way.) -/
theorem ptnghbAt_symm (nk nth a b : ℕ) (hnth : 0 < nth) (ha : a < nk * nth)
    (hb : (b : ℤ) ∈ ptnghbAt nk nth a) : (a : ℤ) ∈ ptnghbAt nk nth b := by
  obtain ⟨ik, ith, hith, rfl⟩ := exists_coords nth a hnth
  have hik : ik < nk := coord_lt_rev nk nth ik ith ha
  obtain ⟨m, rfl⟩ : ∃ m, nk = m + 1 := ⟨nk - 1, by omega⟩
  obtain ⟨t, rfl⟩ : ∃ t, nth = t + 1 := ⟨nth - 1, by omega⟩
  rw [ptnghbAt_coord (m + 1) (t + 1) ik ith hith] at hb
  simp only [List.mem_append, mem_ite_singleton, mem_ite_pair, mem_ite_ite_singleton,
    Nat.add_sub_cancel] at hb
  rcases hb with
    ((((((⟨h1, he⟩ | ⟨h1, he⟩) | (⟨h1, he⟩ | ⟨h1, he⟩)) | (⟨h1, he⟩ | ⟨h1, he⟩)) |
      (⟨⟨h1, h2⟩, he⟩ | ⟨hn, ⟨h1, h2⟩, he⟩)) | (⟨⟨h1, h2⟩, he⟩ | ⟨hn, ⟨h1, h2⟩, he⟩)) |
      (⟨⟨h1, h2⟩, he⟩ | ⟨hn, ⟨h1, h2⟩, he⟩)) | (⟨⟨h1, h2⟩, he⟩ | ⟨hn, ⟨h1, h2⟩, he⟩)
  · -- down neighbour: b is one frequency row below a
    obtain ⟨k, rfl⟩ : ∃ k, ik = k + 1 := ⟨ik - 1, by omega⟩
    have hb' : b = k * (t + 1) + ith := by
      have h2 : (b : ℤ) = ((k * (t + 1) + ith : ℕ) : ℤ) := by rw [he]; push_cast; ring
      exact_mod_cast h2
    subst hb'
    rw [ptnghbAt_coord (m + 1) (t + 1) k ith (by omega)]
    simp only [List.mem_append, mem_ite_singleton, mem_ite_pair, mem_ite_ite_singleton,
      Nat.add_sub_cancel]
    push_cast
    ring_nf
    simp only [and_true, true_and, false_and, and_false, not_false_iff, or_false, false_or]
    omega
  · -- up neighbour
    have hb' : b = (ik + 1) * (t + 1) + ith := by
      have h2 : (b : ℤ) = (((ik + 1) * (t + 1) + ith : ℕ) : ℤ) := by rw [he]; push_cast; ring
      exact_mod_cast h2
    subst hb'
    rw [ptnghbAt_coord (m + 1) (t + 1) (ik + 1) ith (by omega)]
    simp only [List.mem_append, mem_ite_singleton, mem_ite_pair, mem_ite_ite_singleton,
      Nat.add_sub_cancel]
    push_cast
    ring_nf
    simp only [and_true, true_and, false_and, and_false, not_false_iff, or_false, false_or]
    omega
  · -- left neighbour (no wrap)
    obtain ⟨u, rfl⟩ : ∃ u, ith = u + 1 := ⟨ith - 1, by omega⟩
    have hb' : b = ik * (t + 1) + u := by
      have h2 : (b : ℤ) = ((ik * (t + 1) + u : ℕ) : ℤ) := by rw [he]; push_cast; ring
      exact_mod_cast h2
    subst hb'
    rw [ptnghbAt_coord (m + 1) (t + 1) ik u (by omega)]
    simp only [List.mem_append, mem_ite_singleton, mem_ite_pair, mem_ite_ite_singleton,
      Nat.add_sub_cancel]
    push_cast
    ring_nf
    simp only [and_true, true_and, false_and, and_false, not_false_iff, or_false, false_or]
    omega
  · -- left neighbour with direction wrap (ith = 0)
    have hith0 : ith = 0 := by omega
    subst hith0
    have hb' : b = ik * (t + 1) + t := by
      have h2 : (b : ℤ) = ((ik * (t + 1) + t : ℕ) : ℤ) := by rw [he]; push_cast; ring
      exact_mod_cast h2
    subst hb'
    rw [ptnghbAt_coord (m + 1) (t + 1) ik t (by omega)]
    simp only [List.mem_append, mem_ite_singleton, mem_ite_pair, mem_ite_ite_singleton,
      Nat.add_sub_cancel]
    push_cast
    ring_nf
    simp only [and_true, true_and, false_and, and_false, not_false_iff, or_false, false_or]
    omega
  · -- right neighbour (no wrap)
    have hb' : b = ik * (t + 1) + (ith + 1) := by
      have h2 : (b : ℤ) = ((ik * (t + 1) + (ith + 1) : ℕ) : ℤ) := by rw [he]; push_cast; ring
      exact_mod_cast h2
    subst hb'
    rw [ptnghbAt_coord (m + 1) (t + 1) ik (ith + 1) (by omega)]
    simp only [List.mem_append, mem_ite_singleton, mem_ite_pair, mem_ite_ite_singleton,
      Nat.add_sub_cancel]
    push_cast
    ring_nf
    simp only [and_true, true_and, false_and, and_false, not_false_iff, or_false, false_or]
    omega
  · -- right neighbour with direction wrap (ith = t)
    have hitht : ith = t := by omega
    rw [hitht] at he
    have hb' : b = ik * (t + 1) := by
      have h2 : (b : ℤ) = ((ik * (t + 1) : ℕ) : ℤ) := by rw [he]; push_cast; ring
      exact_mod_cast h2
    subst hb'
    have hcoord := ptnghbAt_coord (m + 1) (t + 1) ik 0 (by omega)
    simp only [Nat.add_zero] at hcoord
    rw [hcoord]
    simp only [List.mem_append, mem_ite_singleton, mem_ite_pair, mem_ite_ite_singleton,
      Nat.add_sub_cancel]
    push_cast
    ring_nf
    simp only [and_true, true_and, false_and, and_false, not_false_iff, or_false, false_or]
    omega
  · -- bottom-left diagonal (no wrap)
    obtain ⟨k, rfl⟩ : ∃ k, ik = k + 1 := ⟨ik - 1, by omega⟩
    obtain ⟨u, rfl⟩ : ∃ u, ith = u + 1 := ⟨ith - 1, by omega⟩
    have hb' : b = k * (t + 1) + u := by
      have h2 : (b : ℤ) = ((k * (t + 1) + u : ℕ) : ℤ) := by rw [he]; push_cast; ring
      exact_mod_cast h2
    subst hb'
    rw [ptnghbAt_coord (m + 1) (t + 1) k u (by omega)]
    simp only [List.mem_append, mem_ite_singleton, mem_ite_pair, mem_ite_ite_singleton,
      Nat.add_sub_cancel]
    push_cast
    ring_nf
    simp only [and_true, true_and, false_and, and_false, not_false_iff, or_false, false_or]
    omega
  · -- bottom-left diagonal with direction wrap (ith = 0)
    subst h2
    obtain ⟨k, rfl⟩ : ∃ k, ik = k + 1 := ⟨ik - 1, by omega⟩
    have hb' : b = k * (t + 1) + t := by
      have h2 : (b : ℤ) = ((k * (t + 1) + t : ℕ) : ℤ) := by rw [he]; push_cast; ring
      exact_mod_cast h2
    subst hb'
    rw [ptnghbAt_coord (m + 1) (t + 1) k t (by omega)]
    simp only [List.mem_append, mem_ite_singleton, mem_ite_pair, mem_ite_ite_singleton,
      Nat.add_sub_cancel]
    push_cast
    ring_nf
    simp only [and_true, true_and, false_and, and_false, not_false_iff, or_false, false_or]
    omega
  · -- top-left diagonal (no wrap)
    obtain ⟨u, rfl⟩ : ∃ u, ith = u + 1 := ⟨ith - 1, by omega⟩
    have hb' : b = (ik + 1) * (t + 1) + u := by
      have h2 : (b : ℤ) = (((ik + 1) * (t + 1) + u : ℕ) : ℤ) := by rw [he]; push_cast; ring
      exact_mod_cast h2
    subst hb'
    rw [ptnghbAt_coord (m + 1) (t + 1) (ik + 1) u (by omega)]
    simp only [List.mem_append, mem_ite_singleton, mem_ite_pair, mem_ite_ite_singleton,
      Nat.add_sub_cancel]
    push_cast
    ring_nf
    simp only [and_true, true_and, false_and, and_false, not_false_iff, or_false, false_or]
    omega
  · -- top-left diagonal with direction wrap (ith = 0)
    subst h2
    have hb' : b = (ik + 1) * (t + 1) + t := by
      have h2 : (b : ℤ) = (((ik + 1) * (t + 1) + t : ℕ) : ℤ) := by rw [he]; push_cast; ring
      exact_mod_cast h2
    subst hb'
    rw [ptnghbAt_coord (m + 1) (t + 1) (ik + 1) t (by omega)]
    simp only [List.mem_append, mem_ite_singleton, mem_ite_pair, mem_ite_ite_singleton,
      Nat.add_sub_cancel]
    push_cast
    ring_nf
    simp only [and_true, true_and, false_and, and_false, not_false_iff, or_false, false_or]
    omega
  · -- bottom-right diagonal (no wrap)
    obtain ⟨k, rfl⟩ : ∃ k, ik = k + 1 := ⟨ik - 1, by omega⟩
    have hb' : b = k * (t + 1) + (ith + 1) := by
      have h2 : (b : ℤ) = ((k * (t + 1) + (ith + 1) : ℕ) : ℤ) := by rw [he]; push_cast; ring
      exact_mod_cast h2
    subst hb'
    rw [ptnghbAt_coord (m + 1) (t + 1) k (ith + 1) (by omega)]
    simp only [List.mem_append, mem_ite_singleton, mem_ite_pair, mem_ite_ite_singleton,
      Nat.add_sub_cancel]
    push_cast
    ring_nf
    simp only [and_true, true_and, false_and, and_false, not_false_iff, or_false, false_or]
    omega
  · -- bottom-right diagonal with direction wrap (ith = t)
    obtain ⟨k, rfl⟩ : ∃ k, ik = k + 1 := ⟨ik - 1, by omega⟩
    have hitht : ith = t := by omega
    rw [hitht] at he
    have hb' : b = k * (t + 1) := by
      have h2 : (b : ℤ) = ((k * (t + 1) : ℕ) : ℤ) := by rw [he]; push_cast; ring
      exact_mod_cast h2
    subst hb'
    have hcoord := ptnghbAt_coord (m + 1) (t + 1) k 0 (by omega)
    simp only [Nat.add_zero] at hcoord
    rw [hcoord]
    simp only [List.mem_append, mem_ite_singleton, mem_ite_pair, mem_ite_ite_singleton,
      Nat.add_sub_cancel]
    push_cast
    ring_nf
    simp only [and_true, true_and, false_and, and_false, not_false_iff, or_false, false_or]
    omega
  · -- top-right diagonal (no wrap)
    have hb' : b = (ik + 1) * (t + 1) + (ith + 1) := by
      have h2 : (b : ℤ) = (((ik + 1) * (t + 1) + (ith + 1) : ℕ) : ℤ) := by rw [he]; push_cast; ring
      exact_mod_cast h2
    subst hb'
    rw [ptnghbAt_coord (m + 1) (t + 1) (ik + 1) (ith + 1) (by omega)]
    simp only [List.mem_append, mem_ite_singleton, mem_ite_pair, mem_ite_ite_singleton,
      Nat.add_sub_cancel]
    push_cast
    ring_nf
    simp only [and_true, true_and, false_and, and_false, not_false_iff, or_false, false_or]
    omega
  · -- top-right diagonal with direction wrap (ith = t)
    have hitht : ith = t := by omega
    rw [hitht] at he
    have hb' : b = (ik + 1) * (t + 1) := by
      have h2 : (b : ℤ) = (((ik + 1) * (t + 1) : ℕ) : ℤ) := by rw [he]; push_cast; ring
      exact_mod_cast h2
    subst hb'
    have hcoord := ptnghbAt_coord (m + 1) (t + 1) (ik + 1) 0 (by omega)
    simp only [Nat.add_zero] at hcoord
    rw [hcoord]
    simp only [List.mem_append, mem_ite_singleton, mem_ite_pair, mem_ite_ite_singleton,
      Nat.add_sub_cancel]
    push_cast
    ring_nf
    simp only [and_true, true_and, false_and, and_false, not_false_iff, or_false, false_or]
    omega

set_option maxHeartbeats 1000000 in
/-- Every entry of a neighbour list is itself a valid bin of the grid, lies
in the same or an adjacent frequency row (never wrapping in frequency), and
(for grids with at least two direction bins) is distinct from the bin
itself. -/
theorem ptnghbAt_structure (nk nth ik ith : ℕ) (hik : ik < nk) (hith : ith < nth) :
    ∀ x ∈ ptnghbAt nk nth (ik * nth + ith), ∃ jk jth, jk < nk ∧ jth < nth ∧
      x = ((jk * nth + jth : ℕ) : ℤ) ∧ (jk + 1 = ik ∨ jk = ik ∨ jk = ik + 1) ∧
      (2 ≤ nth → ¬(jk = ik ∧ jth = ith)) := by
  obtain ⟨m, rfl⟩ : ∃ m, nk = m + 1 := ⟨nk - 1, by omega⟩
  obtain ⟨t, rfl⟩ : ∃ t, nth = t + 1 := ⟨nth - 1, by omega⟩
  intro x hx
  rw [ptnghbAt_coord (m + 1) (t + 1) ik ith hith] at hx
  simp only [List.mem_append, mem_ite_singleton, mem_ite_pair, mem_ite_ite_singleton,
    Nat.add_sub_cancel] at hx
  rcases hx with
    ((((((⟨h1, he⟩ | ⟨h1, he⟩) | (⟨h1, he⟩ | ⟨h1, he⟩)) | (⟨h1, he⟩ | ⟨h1, he⟩)) |
      (⟨⟨h1, h2⟩, he⟩ | ⟨hn, ⟨h1, h2⟩, he⟩)) | (⟨⟨h1, h2⟩, he⟩ | ⟨hn, ⟨h1, h2⟩, he⟩)) |
      (⟨⟨h1, h2⟩, he⟩ | ⟨hn, ⟨h1, h2⟩, he⟩)) | (⟨⟨h1, h2⟩, he⟩ | ⟨hn, ⟨h1, h2⟩, he⟩)
  · -- down neighbour
    obtain ⟨k, rfl⟩ : ∃ k, ik = k + 1 := ⟨ik - 1, by omega⟩
    refine ⟨k, ith, by omega, by omega, ?_, by omega, by omega⟩
    rw [he]; push_cast; ring
  · -- up neighbour
    refine ⟨(ik + 1), ith, by omega, by omega, ?_, by omega, by omega⟩
    rw [he]; push_cast; ring
  · -- left neighbour
    obtain ⟨u, rfl⟩ : ∃ u, ith = u + 1 := ⟨ith - 1, by omega⟩
    refine ⟨ik, u, by omega, by omega, ?_, by omega, by omega⟩
    rw [he]; push_cast; ring
  · -- left neighbour with wrap
    have hith0 : ith = 0 := by omega
    subst hith0
    refine ⟨ik, t, by omega, by omega, ?_, by omega, by omega⟩
    rw [he]; push_cast; ring
  · -- right neighbour
    refine ⟨ik, (ith + 1), by omega, by omega, ?_, by omega, by omega⟩
    rw [he]; push_cast; ring
  · -- right neighbour with wrap
    have hitht : ith = t := by omega
    rw [hitht] at he
    refine ⟨ik, 0, by omega, by omega, ?_, by omega, by omega⟩
    rw [he]; push_cast; ring
  · -- bottom-left diagonal
    obtain ⟨k, rfl⟩ : ∃ k, ik = k + 1 := ⟨ik - 1, by omega⟩
    obtain ⟨u, rfl⟩ : ∃ u, ith = u + 1 := ⟨ith - 1, by omega⟩
    refine ⟨k, u, by omega, by omega, ?_, by omega, by omega⟩
    rw [he]; push_cast; ring
  · -- bottom-left diagonal with wrap
    subst h2
    obtain ⟨k, rfl⟩ : ∃ k, ik = k + 1 := ⟨ik - 1, by omega⟩
    refine ⟨k, t, by omega, by omega, ?_, by omega, by omega⟩
    rw [he]; push_cast; ring
  · -- top-left diagonal
    obtain ⟨u, rfl⟩ : ∃ u, ith = u + 1 := ⟨ith - 1, by omega⟩
    refine ⟨(ik + 1), u, by omega, by omega, ?_, by omega, by omega⟩
    rw [he]; push_cast; ring
  · -- top-left diagonal with wrap
    subst h2
    refine ⟨(ik + 1), t, by omega, by omega, ?_, by omega, by omega⟩
    rw [he]; push_cast; ring
  · -- bottom-right diagonal
    obtain ⟨k, rfl⟩ : ∃ k, ik = k + 1 := ⟨ik - 1, by omega⟩
    refine ⟨k, (ith + 1), by omega, by omega, ?_, by omega, by omega⟩
    rw [he]; push_cast; ring
  · -- bottom-right diagonal with wrap
    obtain ⟨k, rfl⟩ : ∃ k, ik = k + 1 := ⟨ik - 1, by omega⟩
    have hitht : ith = t := by omega
    rw [hitht] at he
    refine ⟨k, 0, by omega, by omega, ?_, by omega, by omega⟩
    rw [he]; push_cast; ring
  · -- top-right diagonal
    refine ⟨(ik + 1), (ith + 1), by omega, by omega, ?_, by omega, by omega⟩
    rw [he]; push_cast; ring
  · -- top-right diagonal with wrap
    have hitht : ith = t := by omega
    rw [hitht] at he
    refine ⟨(ik + 1), 0, by omega, by omega, ?_, by omega, by omega⟩
    rw [he]; push_cast; ring

theorem len_ite_le (c : Prop) [Decidable c] (y : ℤ) :
    (if c then [y] else ([] : List ℤ)).length ≤ 1 := by
  split <;> simp

theorem len_pair_le (c : Prop) [Decidable c] (y z : ℤ) :
    (if c then [y] else [z]).length ≤ 1 := by
  split <;> simp

theorem len_ite_ite_le (c d : Prop) [Decidable c] [Decidable d] (y z : ℤ) :
    (if c then [y] else if d then [z] else ([] : List ℤ)).length ≤ 1 := by
  split
  · simp
  · split <;> simp

/-- A neighbour list never holds more than 8 entries. -/
theorem ptnghbAt_length_le (nk nth n : ℕ) : (ptnghbAt nk nth n).length ≤ 8 := by
  simp only [ptnghbAt, List.length_append]
  have g1 := len_ite_le (0 < n / nth) ((n : ℤ) - nth)
  have g2 := len_ite_le (n / nth < nk - 1) ((n : ℤ) + nth)
  have g3 := len_pair_le (0 < n % nth) ((n : ℤ) - 1) ((n : ℤ) - 1 + nth)
  have g4 := len_pair_le (n % nth < nth - 1) ((n : ℤ) + 1) ((n : ℤ) + 1 - nth)
  have g5 := len_ite_ite_le (0 < n / nth ∧ 0 < n % nth) (0 < n / nth ∧ n % nth = 0)
    ((n : ℤ) - nth - 1) ((n : ℤ) - nth - 1 + nth)
  have g6 := len_ite_ite_le (n / nth < nk - 1 ∧ 0 < n % nth) (n / nth < nk - 1 ∧ n % nth = 0)
    ((n : ℤ) + nth - 1) ((n : ℤ) + nth - 1 + nth)
  have g7 := len_ite_ite_le (0 < n / nth ∧ n % nth < nth - 1) (0 < n / nth ∧ n % nth = nth - 1)
    ((n : ℤ) - nth + 1) ((n : ℤ) - nth + 1 - nth)
  have g8 := len_ite_ite_le (n / nth < nk - 1 ∧ n % nth < nth - 1)
    (n / nth < nk - 1 ∧ n % nth = nth - 1)
    ((n : ℤ) + nth + 1) ((n : ℤ) + nth + 1 - nth)
  omega

set_option maxHeartbeats 1600000 in
/-- For grids with at least 3 direction bins the neighbour list has no
duplicate entries. -/
theorem ptnghbAt_nodup (nk nth ik ith : ℕ) (h3 : 3 ≤ nth) (hik : ik < nk)
    (hith : ith < nth) : (ptnghbAt nk nth (ik * nth + ith)).Nodup := by
  obtain ⟨m, rfl⟩ : ∃ m, nk = m + 1 := ⟨nk - 1, by omega⟩
  obtain ⟨t, rfl⟩ : ∃ t, nth = t + 1 := ⟨nth - 1, by omega⟩
  have h2t : 2 ≤ t := by omega
  have ht1 : 0 < t := by omega
  have ht2 : ¬(0 = t) := by omega
  have ht3 : ¬(t = 0) := by omega
  have ht4 : ¬(t < t) := by omega
  rcases (show ith = 0 ∨ (0 < ith ∧ ith < t) ∨ ith = t from by omega) with hC | ⟨hC1, hC2⟩ | hC <;>
    simp_all [ptnghbAt, coord_div, coord_mod, Nat.add_sub_cancel, List.nodup_cons,
      List.nodup_append, List.mem_append] <;>
    split_ifs <;>
    simp_all [List.nodup_cons] <;>
    (try generalize (ik : ℤ) * ((t : ℤ) + 1) = P) <;>
    omega

/-- For grids with at least 2 direction bins a bin never appears in its own
neighbour list. -/
theorem ptnghbAt_not_self (nk nth ik ith : ℕ) (h2 : 2 ≤ nth) (hik : ik < nk)
    (hith : ith < nth) :
    ((ik * nth + ith : ℕ) : ℤ) ∉ ptnghbAt nk nth (ik * nth + ith) := by
  intro hmem
  obtain ⟨jk, jth, hjk, hjth, hxe, hrow, hne⟩ :=
    ptnghbAt_structure nk nth ik ith hik hith _ hmem
  have heq : ik * nth + ith = jk * nth + jth := by exact_mod_cast hxe
  have h1 : ik = jk := by
    have hd := congrArg (· / nth) heq
    simpa [coord_div nth ik ith hith, coord_div nth jk jth hjth] using hd
  have hm : ith = jth := by
    have hd := congrArg (· % nth) heq
    simpa [coord_mod nth ik ith hith, coord_mod nth jk jth hjth] using hd
  exact hne h2 ⟨by omega, by omega⟩

/-- Reading the `n`-th entry of `ptnghb` gives the neighbour list of bin `n`. -/
theorem ptnghb_getD (nk nth n : ℕ) (hn : n < nk * nth) :
    (ptnghb nk nth).getD n [] = ptnghbAt nk nth n := by
  rw [ptnghb, List.getD_eq_getElem?_getD]
  simp [List.getElem?_map, List.getElem?_range, hn]

/-- A bin in direction column 0 has the direction-wrapped left neighbour in
column `nth - 1`. -/
theorem ptnghbAt_wrap_left (nk nth ik : ℕ) (hnth : 0 < nth) :
    ∃ x ∈ ptnghbAt nk nth (ik * nth), x % (nth : ℤ) = ((nth - 1 : ℕ) : ℤ) := by
  obtain ⟨t, rfl⟩ : ∃ t, nth = t + 1 := ⟨nth - 1, by omega⟩
  have hcoord := ptnghbAt_coord nk (t + 1) ik 0 (by omega)
  simp only [Nat.add_zero] at hcoord
  refine ⟨(ik : ℤ) * (t + 1) + t, ?_, ?_⟩
  · rw [hcoord]
    simp only [List.mem_append, mem_ite_singleton, mem_ite_pair, mem_ite_ite_singleton]
    push_cast
    ring_nf
    simp only [and_true, true_and, false_and, and_false, not_false_iff, or_false, false_or,
      or_true, true_or]
  · have hre : (ik : ℤ) * (t + 1) + t = (t : ℤ) + ((t : ℤ) + 1) * ik := by ring
    simp only [Nat.add_sub_cancel]
    push_cast
    rw [hre, Int.add_mul_emod_self_left, Int.emod_eq_of_lt (by omega) (by omega)]

/-- A bin in direction column `nth - 1` has the direction-wrapped right
neighbour in column 0. -/
theorem ptnghbAt_wrap_right (nk nth ik : ℕ) (hnth : 0 < nth) :
    ∃ x ∈ ptnghbAt nk nth (ik * nth + (nth - 1)), x % (nth : ℤ) = 0 := by
  obtain ⟨t, rfl⟩ : ∃ t, nth = t + 1 := ⟨nth - 1, by omega⟩
  simp only [Nat.add_sub_cancel]
  have hcoord := ptnghbAt_coord nk (t + 1) ik t (by omega)
  refine ⟨(ik : ℤ) * (t + 1), ?_, ?_⟩
  · rw [hcoord]
    simp only [List.mem_append, mem_ite_singleton, mem_ite_pair, mem_ite_ite_singleton]
    push_cast
    ring_nf
    simp only [and_true, true_and, false_and, and_false, not_false_iff, or_false, false_or,
      or_true, true_or]
    omega
  · have hre : (ik : ℤ) * (t + 1) = (0 : ℤ) + ((t : ℤ) + 1) * ik := by ring
    push_cast
    rw [hre, Int.add_mul_emod_self_left]
    simp

/-- A neighbour of a valid bin is itself a valid bin index. -/
theorem ptnghbAt_mem_lt (nk nth a : ℕ) (hnth : 0 < nth) (ha : a < nk * nth) (b : ℕ)
    (hb : (b : ℤ) ∈ ptnghbAt nk nth a) : b < nk * nth := by
  obtain ⟨ik, ith, hith, rfl⟩ := exists_coords nth a hnth
  have hik := coord_lt_rev nk nth ik ith ha
  obtain ⟨jk, jth, hjk, hjth, hxe, _, _⟩ := ptnghbAt_structure nk nth ik ith hik hith _ hb
  have hbe : b = jk * nth + jth := by exact_mod_cast hxe
  subst hbe
  exact coord_lt nk nth jk jth hjk hjth

/-- **C6.**  Properties of the neighbour topology built by `ptnghb`, for every
grid with `nFreq ≥ 1` and `nDir ≥ 1`:
* the neighbour relation is symmetric (unconditionally — frequency boundaries
  only drop links in a symmetric way, so in particular symmetry holds for all
  non-boundary links as the claim states);
* a bin with direction index 0 has a neighbour with direction index `nDir - 1`
  and vice versa (direction wrap);
* every link stays within one frequency row of its origin, and hence (for
  `nFreq ≥ 3`) no link connects frequency row 0 to row `nFreq - 1`
  (no frequency wrap). -/
theorem claim_C6_neighbour_topology (nk nth : ℕ) (hnk : 1 ≤ nk) (hnth : 1 ≤ nth) :
    (∀ a b : ℕ, a < nk * nth → (b : ℤ) ∈ (ptnghb nk nth).getD a [] →
        (a : ℤ) ∈ (ptnghb nk nth).getD b [])
    ∧ (∀ a : ℕ, a < nk * nth → a % nth = 0 →
        ∃ x ∈ (ptnghb nk nth).getD a [], x % (nth : ℤ) = ((nth - 1 : ℕ) : ℤ))
    ∧ (∀ a : ℕ, a < nk * nth → a % nth = nth - 1 →
        ∃ x ∈ (ptnghb nk nth).getD a [], x % (nth : ℤ) = 0)
    ∧ (∀ a b : ℕ, a < nk * nth → (b : ℤ) ∈ (ptnghb nk nth).getD a [] →
        (b / nth + 1 = a / nth ∨ b / nth = a / nth ∨ b / nth = a / nth + 1))
    ∧ (3 ≤ nk → ∀ a b : ℕ, a < nk * nth → (b : ℤ) ∈ (ptnghb nk nth).getD a [] →
        ¬(a / nth = 0 ∧ b / nth = nk - 1) ∧ ¬(a / nth = nk - 1 ∧ b / nth = 0)) := by
  have hrow : ∀ a b : ℕ, a < nk * nth → (b : ℤ) ∈ ptnghbAt nk nth a →
      (b / nth + 1 = a / nth ∨ b / nth = a / nth ∨ b / nth = a / nth + 1) := by
    intro a b ha hb
    obtain ⟨ik, ith, hith, rfl⟩ := exists_coords nth a (by omega)
    have hik := coord_lt_rev nk nth ik ith ha
    obtain ⟨jk, jth, hjk, hjth, hxe, hrows, _⟩ :=
      ptnghbAt_structure nk nth ik ith hik hith _ hb
    have hbe : b = jk * nth + jth := by exact_mod_cast hxe
    subst hbe
    rw [coord_div nth ik ith hith, coord_div nth jk jth hjth]
    omega
  refine ⟨?_, ?_, ?_, ?_, ?_⟩
  · intro a b ha hb
    rw [ptnghb_getD nk nth a ha] at hb
    have hblt : b < nk * nth := ptnghbAt_mem_lt nk nth a (by omega) ha b hb
    rw [ptnghb_getD nk nth b hblt]
    exact ptnghbAt_symm nk nth a b (by omega) ha hb
  · intro a ha hmod
    have hdvd := Nat.dvd_of_mod_eq_zero hmod
    have h0 : a / nth * nth = a := Nat.div_mul_cancel hdvd
    have hw := ptnghbAt_wrap_left nk nth (a / nth) (by omega)
    rw [h0] at hw
    rw [ptnghb_getD nk nth a ha]
    exact hw
  · intro a ha hmod
    have h0 := Nat.div_add_mod a nth
    rw [hmod] at h0
    have h0' : a / nth * nth + (nth - 1) = a := by rw [Nat.mul_comm] at h0; exact h0
    have hw := ptnghbAt_wrap_right nk nth (a / nth) (by omega)
    rw [h0'] at hw
    rw [ptnghb_getD nk nth a ha]
    exact hw
  · intro a b ha hb
    rw [ptnghb_getD nk nth a ha] at hb
    exact hrow a b ha hb
  · intro h3 a b ha hb
    rw [ptnghb_getD nk nth a ha] at hb
    have := hrow a b ha hb
    omega

/-- Witness for C6: concrete symmetric link in a `2 × 3` grid. -/
theorem claim_C6_neighbour_topology_witness :
    (3 : ℤ) ∈ (ptnghb 2 3).getD 0 [] ∧ (0 : ℤ) ∈ (ptnghb 2 3).getD 3 [] :=
  ⟨by decide, (claim_C6_neighbour_topology 2 3 (by decide) (by decide)).1 0 3
    (by decide) (by decide)⟩

/-- **C7 (amended: requires `nDir ≥ 3`).**  For grids with at least three
direction bins, every neighbour list built by `ptnghb` has at most 8 entries,
the entries are pairwise distinct, none equals the bin itself, and every
entry is a valid bin index of the grid. -/
theorem claim_C7_neighbour_list (nk nth n : ℕ) (h3 : 3 ≤ nth) (hn : n < nk * nth) :
    ((ptnghb nk nth).getD n []).length ≤ 8
    ∧ ((ptnghb nk nth).getD n []).Nodup
    ∧ (n : ℤ) ∉ (ptnghb nk nth).getD n []
    ∧ ∀ x ∈ (ptnghb nk nth).getD n [], 0 ≤ x ∧ x < ((nk * nth : ℕ) : ℤ) := by
  rw [ptnghb_getD nk nth n hn]
  obtain ⟨ik, ith, hith, rfl⟩ := exists_coords nth n (by omega)
  have hik := coord_lt_rev nk nth ik ith hn
  refine ⟨ptnghbAt_length_le nk nth _, ptnghbAt_nodup nk nth ik ith h3 hik hith,
    ptnghbAt_not_self nk nth ik ith (by omega) hik hith, fun x hx => ?_⟩
  obtain ⟨jk, jth, hjk, hjth, rfl, _, _⟩ := ptnghbAt_structure nk nth ik ith hik hith _ hx
  constructor
  · exact Int.natCast_nonneg _
  · exact_mod_cast coord_lt nk nth jk jth hjk hjth

/-- Witness for C7 (amended): the neighbour list of bin 0 in a `2 × 3` grid. -/
theorem claim_C7_neighbour_list_witness :
    ((ptnghb 2 3).getD 0 []).Nodup ∧ (0 : ℤ) ∉ (ptnghb 2 3).getD 0 [] ∧
      ((ptnghb 2 3).getD 0 []).length ≤ 8 :=
  ⟨(claim_C7_neighbour_list 2 3 0 (by decide) (by decide)).2.1,
   (claim_C7_neighbour_list 2 3 0 (by decide) (by decide)).2.2.1,
   (claim_C7_neighbour_list 2 3 0 (by decide) (by decide)).1⟩

/-- **C7 counterexample.**  The claim as stated quantifies over all
`nFreq ≥ 1`, `nDir ≥ 1`; but in a `1 × 1` grid the direction wraps
`n - 1 + nDir` and `n + 1 - nDir` both reduce to `n` itself, so bin 0 lists
itself (twice): the entries are neither distinct from `n` nor pairwise
distinct. -/
theorem claim_C7_counterexample :
    (ptnghb 1 1).getD 0 [] = [0, 0] ∧ (0 : ℤ) ∈ (ptnghb 1 1).getD 0 []
      ∧ ¬((ptnghb 1 1).getD 0 []).Nodup := by
  refine ⟨by decide, by decide, by decide⟩

/-! ## `specpart`: the watershed labelling algorithm

The embedding below mirrors the imperative source statement by statement.
Arrays `imo`/`imd` are lists updated with `List.set`; the FIFO queue `iq1`
and the Python `int` entries of the neighbour lists are `List ℤ`.  The two
inner `while` loops are written with an explicit fuel parameter that is
chosen large enough for the loop to run to its `break` (each bin is enqueued
at most once per level, so `(nspec + 4)^2` steps always suffice); the flood
fill of step 1.c shrinks the set of `-2` bins, so `nspec + 1` rounds
suffice. -/

/-- Minimum of a list of rationals (`np.min`; only used on non-empty lists). -/
def listMin : List ℚ → ℚ
  | [] => 0
  | x :: xs => xs.foldl min x

/-- Maximum of a list of rationals (`np.max`; only used on non-empty lists). -/
def listMax : List ℚ → ℚ
  | [] => 0
  | x :: xs => xs.foldl max x

/-- `np.around`: round half to even (banker's rounding). -/
def roundHalfEven (q : ℚ) : ℤ :=
  let f := q.floor
  let r := q - f
  if r < 1 / 2 then f
  else if 1 / 2 < r then f + 1
  else if f % 2 = 0 then f else f + 1

/-- `np.around(np.nan).astype(int)`.  When `zmax = zmin` the source computes
`fact = (ihmax - 1) / 0.0 = inf` (NumPy float division by zero), then
`zp * fact = 0 * inf = NaN`, and `NaN.astype(int64)` yields `-2^63` (the
int64 C cast of NaN on all mainstream platforms, with a RuntimeWarning).
The embedding keeps that value explicit; all that matters for the algorithm
is that it differs from every level index `0 ≤ ih < ihmax`. -/
def nanInt : ℤ := -(2 ^ 63)

/-- Stable insertion of index `i` into an index list sorted by `zp` value
(ties resolved by index order). -/
def insertIdx (zp : List ℚ) (i : ℕ) : List ℕ → List ℕ
  | [] => [i]
  | j :: js =>
    if zp.getD j 0 < zp.getD i 0 ∨ (zp.getD j 0 = zp.getD i 0 ∧ j < i) then
      j :: insertIdx zp i js
    else i :: j :: js

/-- `np.argsort` of `zp`, ascending.  (NumPy's default sort is not stable on
ties; the embedding uses the stable index order.  None of the results proved
below depend on the tie order: the inputs used either have no relevant ties
or are checked for both orders.) -/
def argsort (zp : List ℚ) : List ℕ :=
  (List.range zp.length).foldr (insertIdx zp) []

/-- `argmin` of a rational list: index of the first minimal entry. -/
def argminIdx : List ℚ → ℕ
  | [] => 0
  | x :: xs =>
    (((x :: xs).enum).foldl
      (fun best cur => if cur.2 < best.2 then cur else best) (0, x)).1

/-- `np.abs` on a rational. -/
def ratAbs (x : ℚ) : ℚ := if x < 0 then -x else x

/-- The fictitious queue sentinel of the source. -/
def ifict : ℤ := -100

/-- Step 1.a body: flag bin `ip` with the mask value `-2`; if some neighbour
already carries a label `>= 0`, record distance 1 and enqueue `ip`. -/
def flagBin (neigh : ℕ → List ℤ) (st : List ℤ × List ℤ × List ℤ) (ip : ℕ) :
    List ℤ × List ℤ × List ℤ :=
  let imo := st.1.set ip (-2)
  if (neigh ip).any (fun j => 0 ≤ imo.getD j.toNat 0) then
    (imo, st.2.1.set ip 1, st.2.2 ++ [(ip : ℤ)])
  else (imo, st.2.1, st.2.2)

/-- Step 1.a: walk `ind` from `mstart` while the quantised level equals `ih`,
flagging each such bin.  Returns the Python value of the loop variable `m`
(the first non-matching position, or `nspec - 1` when the loop runs to the
end) together with the updated state. -/
def scanLevelAux (nspec : ℕ) (neigh : ℕ → List ℤ) (imi : List ℤ) (ind : List ℕ)
    (ih : ℤ) : ℕ → ℕ → List ℤ × List ℤ × List ℤ → ℕ × (List ℤ × List ℤ × List ℤ)
  | 0, m, st => (m, st)
  | fuel + 1, m, st =>
    if m < nspec then
      let ip := ind.getD m 0
      if imi.getD ip 0 ≠ ih then (m, st)
      else
        let st2 := flagBin neigh st ip
        if m = nspec - 1 then (m, st2)
        else scanLevelAux nspec neigh imi ind ih fuel (m + 1) st2
    else (m, st)

/-- Step 1.a with enough fuel to reach the end of `ind`. -/
def scanLevel (nspec : ℕ) (neigh : ℕ → List ℤ) (imi : List ℤ) (ind : List ℕ) (ih : ℤ)
    (m : ℕ) (st : List ℤ × List ℤ × List ℤ) : ℕ × (List ℤ × List ℤ × List ℤ) :=
  scanLevelAux nspec neigh imi ind ih (nspec + 1) m st

/-- Step 1.b body: process the neighbours of the dequeued bin `ip` at the
current breadth-first distance `d`, in list order (the running updates of
`imo[ip]` are visible to the later neighbours, as in the source). -/
def procNb (neigh : ℕ → List ℤ) (d : ℤ) (ip : ℕ) (st : List ℤ × List ℤ × List ℤ) :
    List ℤ × List ℤ × List ℤ :=
  (neigh ip).foldl
    (fun acc ippz =>
      let imo := acc.1
      let imd := acc.2.1
      let iq := acc.2.2
      let ipp := ippz.toNat
      if 0 ≤ imo.getD ipp 0 ∧ imd.getD ipp 0 < d then
        if 0 < imo.getD ipp 0 then
          if imo.getD ip 0 = -2 ∨ imo.getD ip 0 = 0 then
            (imo.set ip (imo.getD ipp 0), imd, iq)
          else if imo.getD ip 0 ≠ imo.getD ipp 0 then (imo.set ip 0, imd, iq)
          else (imo, imd, iq)
        else if imo.getD ip 0 = -2 then (imo.set ip 0, imd, iq)
        else (imo, imd, iq)
      else if imo.getD ipp 0 = -2 ∧ imd.getD ipp 0 = 0 then
        (imo, imd.set ipp (d + 1), iq ++ [ippz])
      else (imo, imd, iq))
    st

/-- Step 1.b: the queue loop with its sentinel-separated distance rings. -/
def procQueue (neigh : ℕ → List ℤ) : ℕ → ℤ → List ℤ × List ℤ × List ℤ → List ℤ × List ℤ
  | 0, _, st => (st.1, st.2.1)
  | fuel + 1, d, st =>
    match st.2.2 with
    | [] => (st.1, st.2.1)
    | ip :: rest =>
      if ip = ifict then
        match rest with
        | [] => (st.1, st.2.1)
        | _ :: _ =>
          match rest ++ [ifict] with
          | [] => (st.1, st.2.1)
          | ip2 :: rest2 =>
            procQueue neigh fuel (d + 1) (procNb neigh (d + 1) ip2.toNat (st.1, st.2.1, rest2))
      else procQueue neigh fuel d (procNb neigh d ip.toNat (st.1, st.2.1, rest))

/-- Step 1.c flood fill: label the whole `-2`-connected region with the new
basin id (the Python `set` iteration order is immaterial because the whole
queue is relabelled before the next neighbour expansion). -/
def flood (neigh : ℕ → List ℤ) (lab : ℤ) : ℕ → List ℤ → List ℕ → List ℤ
  | 0, imo, _ => imo
  | fuel + 1, imo, iq2 =>
    if iq2.isEmpty then imo
    else
      let imo2 := iq2.foldl (fun a i => a.set i lab) imo
      let iqset := ((iq2.map neigh).flatten.map Int.toNat).dedup
      flood neigh lab fuel imo2 (iqset.filter (fun i => imo2.getD i 0 = -2))

/-- Step 1.c: reset the distances of the processed bins and open a new basin
for every bin still flagged `-2`. -/
def stepC (neigh : ℕ → List ℤ) (ips : List ℕ) (st : List ℤ × List ℤ × ℤ) :
    List ℤ × List ℤ × ℤ :=
  ips.foldl
    (fun acc ip =>
      let imo := acc.1
      let imd := acc.2.1.set ip 0
      let lab := acc.2.2
      if imo.getD ip 0 = -2 then
        (flood neigh (lab + 1) (imo.length + 1) imo [ip], imd, lab + 1)
      else (imo, imd, lab))
    st

/-- Step 2: up to 5 relaxation passes over the residual label-0 bins.  The
two `any(...)` tests mirror Python truthiness on the *index* lists
(`np.where(imo == 0)[0]` and the comprehension `jnl`): they are true only if
some index in the list is non-zero, so bin index 0 never counts. -/
def relax (neigh : ℕ → List ℤ) (zp : List ℚ) : ℕ → List ℤ → List ℤ
  | 0, imo => imo
  | p + 1, imo =>
    let watershed0 := (List.range imo.length).filter (fun i => imo.getD i 0 = 0)
    if ¬ watershed0.any (fun i => i ≠ 0) then imo
    else
      let newvals := watershed0.map (fun jl =>
        let jnl := (neigh jl).filter (fun j => imo.getD j.toNat 0 ≠ 0)
        if jnl.any (fun j => j ≠ 0) then
          let ipt := argminIdx (jnl.map (fun j => ratAbs (zp.getD j.toNat 0 - zp.getD jl 0)))
          imo.getD (jnl.getD ipt 0).toNat 0
        else 0)
      relax neigh zp p ((watershed0.zip newvals).foldl (fun a iv => a.set iv.1 iv.2) imo)

/-- Reshape a flat list into rows of `nth` entries. -/
def chunksAux : ℕ → ℕ → List ℤ → List (List ℤ)
  | 0, _, _ => []
  | _, _, [] => []
  | _ + 1, 0, x :: xs => [x :: xs]
  | fuel + 1, nth + 1, x :: xs =>
    (x :: xs).take (nth + 1) :: chunksAux fuel (nth + 1) ((x :: xs).drop (nth + 1))

/-- Reshape a flat list into rows of `nth` entries. -/
def chunks (nth : ℕ) (l : List ℤ) : List (List ℤ) :=
  chunksAux (l.length + 1) nth l

/-- `specpart(spectrum, ihmax)`: the watershed partitioning of a 2-D
spectrum, mirroring the source line by line. -/
def specpart (spectrum : List (List ℚ)) (ihmax : ℕ) : List (List ℤ) :=
  let nk := spectrum.length
  let nth := (spectrum.getD 0 []).length
  let neigh : ℕ → List ℤ := fun n => (ptnghb nk nth).getD n []
  let z := spectrum.flatten
  let nspec := z.length
  let zmin := listMin z
  let zmax := listMax z
  let zp := z.map (fun v => zmax - v)
  let fact : ℚ := ((ihmax : ℚ) - 1) / (zmax - zmin)
  let imi : List ℤ :=
    if zmax = zmin then List.replicate nspec nanInt
    else zp.map (fun v => roundHalfEven (v * fact))
  let ind := argsort zp
  let qfuel := (nspec + 4) * (nspec + 4)
  let final := (List.range ihmax).foldl
    (fun (st : List ℤ × List ℤ × ℤ × ℕ) ih =>
      let mstart := st.2.2.2
      let scanned := scanLevel nspec neigh imi ind (ih : ℤ) mstart (st.1, st.2.1, [])
      let m := scanned.1
      let queued := procQueue neigh qfuel 1
        (scanned.2.1, scanned.2.2.1, scanned.2.2.2 ++ [ifict])
      let cres := stepC neigh ((ind.drop mstart).take (m - mstart))
        (queued.1, queued.2, st.2.2.1)
      (cres.1, cres.2.1, cres.2.2, m))
    (List.replicate nspec (-1), List.replicate nspec 0, 0, 0)
  chunks nth (relax neigh zp 5 final.1)

/-! ## `nppart` / `partition`: the batch entry point

The shipped `nppart` guvectorize kernel is a placeholder: its body is
`for ind in range(swells + 1): out[ind, :, :] = spectrum`, which copies the
raw input spectrum into every partition slot and ignores the wind, depth and
threshold inputs entirely.  `partition` wires it through `xr.apply_ufunc`
over the batch dimensions, adds the `part` coordinate `0..swells` and
transposes the result part-major.  The embedding models a dataset as an
explicit batch of 2-D grids with per-batch wind/depth scalars; the
string-keyed variable lookup and the dtype casts of the source are identity
here. -/

/-- A 2-D spectrum grid `E(freq, dir)`, row-major. -/
abbrev Spectrum2D := List (List ℚ)

/-- The `nppart` kernel as shipped: one copy of the input spectrum per
partition slot; all other inputs are ignored by the body. -/
def nppart (spectrum : Spectrum2D) (freq dir : List ℚ) (wspd wdir dpt : ℚ)
    (swells : ℕ) (agefac wscut : ℚ) : List Spectrum2D :=
  (List.range (swells + 1)).map (fun _ => spectrum)

/-- Input dataset: a batch of spectra with shared `freq`/`dir` axes and
per-batch wind speed, wind direction and depth. -/
structure SpecDataset where
  efth : List Spectrum2D
  freq : List ℚ
  dir : List ℚ
  wspd : List ℚ
  wdir : List ℚ
  dpt : List ℚ

/-- Output of `partition`: the new `part` coordinate and the part-major
stack of partitioned spectra (`part × batch × freq × dir`). -/
structure PartitionedSpectra where
  part : List ℕ
  efth : List (List Spectrum2D)

/-- `partition(dset, ...)`: apply `nppart` across the batch, attach the
`part` coordinate `0..swells` and transpose part-major. -/
def partition (dset : SpecDataset) (swells : ℕ) (agefac wscut : ℚ) :
    PartitionedSpectra :=
  let perBatch := (List.range dset.efth.length).map (fun b =>
    nppart (dset.efth.getD b []) dset.freq dset.dir (dset.wspd.getD b 0)
      (dset.wdir.getD b 0) (dset.dpt.getD b 0) swells agefac wscut)
  { part := List.range (swells + 1)
    efth := (List.range (swells + 1)).map
      (fun p => perBatch.map (fun stack => stack.getD p [])) }

theorem getD_range_map {α : Type} (f : ℕ → α) (N p : ℕ) (d : α) (hp : p < N) :
    ((List.range N).map f).getD p d = f p := by
  rw [List.getD_eq_getElem?_getD]
  simp [List.getElem?_map, List.getElem?_range, hp]

/-- **C4.**  For every dataset and every `swells ≥ 0` (a `ℕ` here), the
output of `partition` carries exactly one new `part` dimension of length
`swells + 1` with coordinate values `0, 1, ..., swells`, independent of the
data; each `part` slab covers the whole batch in input order. -/
theorem claim_C4_part_dimension (dset : SpecDataset) (swells : ℕ) (agefac wscut : ℚ) :
    (partition dset swells agefac wscut).part = List.range (swells + 1)
    ∧ (partition dset swells agefac wscut).part.length = swells + 1
    ∧ (partition dset swells agefac wscut).efth.length = swells + 1
    ∧ ∀ slab ∈ (partition dset swells agefac wscut).efth, slab.length = dset.efth.length := by
  refine ⟨rfl, by simp [partition], by simp [partition], ?_⟩
  intro slab hs
  simp only [partition, List.mem_map] at hs
  obtain ⟨p, hp, rfl⟩ := hs
  simp

/-- **C10.**  The shipped pipeline ignores wind speed, wind direction,
depth, age factor and wind-sea cutoff: any two assignments of those inputs
give identical outputs, and every partition slot equals the input spectrum
exactly. -/
theorem claim_C10_wind_inputs_ignored (efth : List Spectrum2D) (freq dir : List ℚ)
    (w1 d1 p1 w2 d2 p2 : List ℚ) (swells : ℕ) (a1 c1 a2 c2 : ℚ) :
    partition ⟨efth, freq, dir, w1, d1, p1⟩ swells a1 c1
      = partition ⟨efth, freq, dir, w2, d2, p2⟩ swells a2 c2
    ∧ ∀ p < swells + 1, ∀ b < efth.length,
      ((partition ⟨efth, freq, dir, w1, d1, p1⟩ swells a1 c1).efth.getD p []).getD b []
        = efth.getD b [] := by
  constructor
  · rfl
  · intro p hp b hb
    simp only [partition, nppart, List.map_map]
    rw [getD_range_map _ _ _ _ hp]
    rw [List.getD_eq_getElem?_getD]
    simp only [List.getElem?_map, List.getElem?_range, hb]
    simp [getD_range_map _ _ _ _ hp, List.getElem?_replicate, hp]

/-- Witness for C10 at a concrete one-spectrum batch and two different
wind/depth/threshold assignments. -/
theorem claim_C10_wind_inputs_ignored_witness :
    partition ⟨[[[1]]], [1], [1], [5], [0], [10]⟩ 3 (17 / 10) (1 / 3)
      = partition ⟨[[[1]]], [1], [1], [0], [90], [50]⟩ 3 2 (9 / 10)
    ∧ ((partition ⟨[[[1]]], [1], [1], [5], [0], [10]⟩ 3 (17 / 10) (1 / 3)).efth.getD 0 []).getD 0 []
      = [[1]] :=
  ⟨(claim_C10_wind_inputs_ignored [[[1]]] [1] [1] [5] [0] [10] [0] [90] [50] 3 (17 / 10) (1 / 3) 2 (9 / 10)).1,
   (claim_C10_wind_inputs_ignored [[[1]]] [1] [1] [5] [0] [10] [0] [90] [50] 3 (17 / 10) (1 / 3) 2 (9 / 10)).2
     0 (by decide) 0 (by decide)⟩

/-- Witness for C4 at a concrete one-spectrum batch and `swells = 3`. -/
theorem claim_C4_part_dimension_witness :
    (partition ⟨[[[2]]], [1], [1], [1], [2], [3]⟩ 3 1 (1 / 3)).part = List.range 4
    ∧ (partition ⟨[[[2]]], [1], [1], [1], [2], [3]⟩ 3 1 (1 / 3)).part.length = 4 :=
  ⟨(claim_C4_part_dimension ⟨[[[2]]], [1], [1], [1], [2], [3]⟩ 3 1 (1 / 3)).1,
   (claim_C4_part_dimension ⟨[[[2]]], [1], [1], [1], [2], [3]⟩ 3 1 (1 / 3)).2.1⟩

/-- The `(36, 24)` single-Gaussian-bump spectrum of C1's scenario: a sampled
Gaussian `(1/2)^((ik - 10)^2 + (ith - 5)^2)` centred at bin `(10, 5)` over a
zero floor. -/
def bumpSpectrum : Spectrum2D :=
  (List.range 36).map (fun i => (List.range 24).map (fun j =>
    ((1 : ℚ) / 2) ^ (((i : ℤ) - 10) ^ 2 + ((j : ℤ) - 5) ^ 2).toNat))

/-- Frequency axis for the C1 scenario. -/
def bumpFreq : List ℚ := (List.range 36).map (fun i => ((5 : ℚ) + i) / 100)

/-- Direction axis for the C1 scenario. -/
def bumpDir : List ℚ := (List.range 24).map (fun j => (15 : ℚ) * j)

/-- **C1 (code bug).**  At the claim's failing input — the `(36, 24)`
Gaussian-bump spectrum, wind speed 0, default `swells = 3` — the shipped
`nppart` puts the full (non-zero) spectrum into wind-sea slot 0 and swell
slots 2 and 3 as well, instead of an all-zero grid there: the placeholder
kernel replicates the input into every slot. -/
theorem claim_C1_bump_eval :
    (nppart bumpSpectrum bumpFreq bumpDir 0 0 50 3 (17 / 10) (3333 / 10000)).getD 0 []
        = bumpSpectrum
    ∧ (nppart bumpSpectrum bumpFreq bumpDir 0 0 50 3 (17 / 10) (3333 / 10000)).getD 2 []
        = bumpSpectrum
    ∧ (bumpSpectrum.getD 10 []).getD 5 0 = 1 := by
  refine ⟨rfl, rfl, ?_⟩
  with_unfolding_all rfl

set_option maxRecDepth 4000 in
/-- **C2 (code bug).**  The claim says every bin of the label grid returned
by `specpart` is a non-negative integer for every input grid.  On a constant
grid (`zmax = zmin`) the quantisation degenerates: `fact = inf`,
`zp * fact = NaN`, and the `NaN → int64` cast puts every bin at a level that
matches no iteration, so the whole grid is returned at the initialisation
sentinel `-1`. -/
theorem claim_C2_sentinel_escape :
    specpart [[1, 1]] 200 = [[-1, -1]] := by
  with_unfolding_all rfl

set_option maxRecDepth 4000 in
/-- **C3 (code bug).**  The claim says a constant-energy grid yields exactly
one basin covering all bins.  The code instead returns every bin at the
`-1` initialisation sentinel (it does not raise — the NaN quantisation
silently skips every level). -/
theorem claim_C3_constant_grid :
    specpart [[5, 5], [5, 5]] 200 = [[-1, -1], [-1, -1]]
    ∧ [[-1, -1], [-1, -1]] ≠ [[(1 : ℤ), 1], [1, 1]] := by
  refine ⟨by with_unfolding_all rfl, by decide⟩

set_option maxRecDepth 4000 in
/-- **C5 (code bug).**  On the 1×5 ring `[2, 10, 1, 1, 9]` the watershed
flood labels the bins `[0, 1, 1, 2, 2]`: bin 0 is the only boundary (label
0) bin and its neighbours (bins 4 and 1) carry the non-zero labels 2 and 1.
The claim says such a bin is reassigned to the label of the
closest-elevation non-zero neighbour (here label 2, via bin 4), but the
relaxation phase tests `any(np.where(imo == 0)[0])`, which is `False` for
the index list `[0]`, so the loop breaks before the first pass and bin 0
keeps label 0. -/
theorem claim_C5_relaxation_skipped :
    specpart [[2, 10, 1, 1, 9]] 200 = [[0, 1, 1, 2, 2]]
    ∧ (ptnghb 1 5).getD 0 [] = [4, 1] := by
  refine ⟨by with_unfolding_all rfl, by decide⟩

set_option maxRecDepth 4000 in
/-- **C9 counterexample.**  No `ConfigError` exists and no configuration
validation is performed: `specpart` with the invalid `ihmax = 1` returns a
normal label grid (everything quantised to level 0 becomes one basin), and
`partition` with the invalid `wscut = 2 ∉ [0, 1]` returns the usual
`swells + 1`-slot output instead of surfacing an error. -/
theorem claim_C9_counterexample :
    specpart [[2, 1]] 1 = [[1, 1]]
    ∧ (partition ⟨[[[3]]], [1], [1], [4], [0], [20]⟩ 3 (17 / 10) 2).part = [0, 1, 2, 3] := by
  refine ⟨by with_unfolding_all rfl, by decide⟩

/-- **C9 (amended).**  Invalid configuration values are accepted silently:
for every `wscut` outside `[0, 1]`, `partition` still returns the normal
output with the full `part` coordinate (the cutoff is never inspected). -/
theorem claim_C9_no_validation (dset : SpecDataset) (swells : ℕ) (agefac wscut : ℚ)
    (hbad : wscut < 0 ∨ 1 < wscut) :
    (partition dset swells agefac wscut).part = List.range (swells + 1)
    ∧ (partition dset swells agefac wscut).efth.length = swells + 1 :=
  ⟨rfl, by simp [partition]⟩

/-- Witness for the amended C9 at `wscut = 2`. -/
theorem claim_C9_no_validation_witness :
    (partition ⟨[[[3]]], [1], [1], [4], [0], [20]⟩ 2 (17 / 10) 2).part = List.range 3 :=
  (claim_C9_no_validation ⟨[[[3]]], [1], [1], [4], [0], [20]⟩ 2 (17 / 10) 2
    (Or.inr (by norm_num))).1

/-! ## `inflection`: extrema of the smoothed frequency profile

`np.hamming` is cosine-based and therefore irrational for window sizes ≥ 4;
the embedding takes the window function as a parameter.  `hammingQ` below
records the exact values for sizes ≤ 3 (where the cosine arguments are
0, π, 2π); no theorem evaluates the window at larger sizes. -/

/-- `frequency_resolution(freq)`: absolute differences of adjacent
frequencies (`abs(freq[1:] - freq[:-1])`), or `[1.0]` for a single bin. -/
def frequency_resolution (freq : List ℚ) : List ℚ :=
  if 1 < freq.length then (freq.tail.zip freq).map (fun p => ratAbs (p.1 - p.2))
  else [1]

/-- Full discrete convolution (`np.convolve(a, v)`). -/
def convolveFull (a v : List ℚ) : List ℚ :=
  (List.range (a.length + v.length - 1)).map (fun n =>
    ((List.range (n + 1)).map (fun k => a.getD k 0 * v.getD (n - k) 0)).foldl
      (fun s x => s + x) 0)

/-- `np.convolve(a, v, "same")` for a window no longer than the signal: the
centred slice of the full convolution, of the signal's length.  (When the
window is longer than the signal the source crashes on the subsequent
boolean mask — that case is excluded by hypothesis where it matters.) -/
def convolveSame (a v : List ℚ) : List ℚ :=
  ((convolveFull a v).drop ((v.length - 1) / 2)).take a.length

/-- `np.hamming`, exact at sizes ≤ 3: `[1]`, `[0.08, 0.08]`,
`[0.08, 1.0, 0.08]`.  Sizes ≥ 4 are irrational and never evaluated by the
theorems below. -/
def hammingQ : ℕ → List ℚ
  | 1 => [1]
  | 2 => [2 / 25, 2 / 25]
  | 3 => [2 / 25, 1, 2 / 25]
  | _ => []

/-- `np.sign` on a rational, as a Python int. -/
def pysign (x : ℚ) : ℤ := if x < 0 then -1 else if x = 0 then 0 else 1

/-- `np.diff` on a rational list. -/
def npdiff (l : List ℚ) : List ℚ := (l.tail.zip l).map (fun p => p.1 - p.2)

/-- `np.diff` on an integer list (used on the sign array). -/
def npdiffZ (l : List ℤ) : List ℤ := (l.tail.zip l).map (fun p => p.1 - p.2)

/-- `np.argwhere(l == c)` as a flat index list. -/
def argwhereEq (c : ℤ) (l : List ℤ) : List ℕ :=
  (List.range l.length).filter (fun j => l.getD j 0 = c)

/-- `inflection(spectrum, freq, dfres, fmin)`, with the Hamming window as a
parameter.  `int(dfres / df[0])` truncates toward zero (`Rat.floor.toNat`
on the non-negative values in use; the source raises `OverflowError` when
`df[0] = 0`, a case excluded by hypothesis below).  The single-frequency
`else` branch of the source returns the scalar pair `(0, 0)`; it is modelled
as the empty index pair and is not touched by any claim. -/
def inflection (window : ℕ → List ℚ) (spectrum : List (List ℚ)) (freq : List ℚ)
    (dfres fmin : ℚ) : List ℕ × List ℕ :=
  if 1 < freq.length then
    let df := frequency_resolution freq
    let sf0 := spectrum.map (fun row => row.foldl (fun s x => s + x) 0)
    let nsmooth := (dfres / df.getD 0 0).floor.toNat
    let sf1 := if 1 < nsmooth then convolveSame sf0 (window nsmooth) else sf0
    let sf := (sf1.zip freq).map (fun p => if p.1 < 0 ∨ p.2 < fmin then 0 else p.1)
    let ds := npdiffZ ((npdiff sf).map pysign)
    ((argwhereEq (-2) ds).map (fun j => j + 1), (argwhereEq 2 ds).map (fun j => j + 1))
  else ([], [])

/-- Positions where a profile's discrete derivative `E` changes sign from
`+` to `-` (the claim's wording for a local maximum). -/
def claimMaxima (E : List ℚ) : List ℕ :=
  (List.range E.length).filter
    (fun i => decide (0 < i) && decide (0 < E.getD (i - 1) 0) && decide (E.getD i 0 < 0))

/-- Positions where a profile's discrete derivative `E` changes sign from
`-` to `+` (the claim's wording for a local minimum). -/
def claimMinima (E : List ℚ) : List ℕ :=
  (List.range E.length).filter
    (fun i => decide (0 < i) && decide (E.getD (i - 1) 0 < 0) && decide (0 < E.getD i 0))

/-- The amended claim's description of `inflection`, written in the claim's
own terms: direction-summed profile, window width `int(dfres / Δfreq)`
(truncation), Hamming-weighted moving sum applied exactly when the width
exceeds 1, zeroing of negative or below-`fmin` samples, and extrema at the
direct sign changes of the discrete derivative. -/
def inflectionSpec (window : ℕ → List ℚ) (spectrum : List (List ℚ)) (freq : List ℚ)
    (dfres fmin : ℚ) : List ℕ × List ℕ :=
  if 1 < freq.length then
    let deltaFreq := ratAbs (freq.getD 1 0 - freq.getD 0 0)
    let profile := spectrum.map (fun row => row.foldl (fun s x => s + x) 0)
    let width := (dfres / deltaFreq).floor.toNat
    let smoothed := if 1 < width then convolveSame profile (window width) else profile
    let sf := (smoothed.zip freq).map (fun p => if p.1 < 0 ∨ p.2 < fmin then 0 else p.1)
    (claimMaxima (npdiff sf), claimMinima (npdiff sf))
  else ([], [])

/-- The original claim's smoothing rule (for the counterexample): window
width `round(dfres / Δfreq)` and a *normalised* Hamming-weighted moving
average, with the same zeroing and extremum rules. -/
def inflectionClaimRound (window : ℕ → List ℚ) (spectrum : List (List ℚ)) (freq : List ℚ)
    (dfres fmin : ℚ) : List ℕ × List ℕ :=
  if 1 < freq.length then
    let deltaFreq := ratAbs (freq.getD 1 0 - freq.getD 0 0)
    let profile := spectrum.map (fun row => row.foldl (fun s x => s + x) 0)
    let width := ((dfres / deltaFreq) + 1 / 2).floor.toNat
    let smoothed :=
      if 1 < width then
        let w := window width
        (convolveSame profile w).map (fun x => x / w.foldl (fun s y => s + y) 0)
      else profile
    let sf := (smoothed.zip freq).map (fun p => if p.1 < 0 ∨ p.2 < fmin then 0 else p.1)
    (claimMaxima (npdiff sf), claimMinima (npdiff sf))
  else ([], [])

theorem npdiffZ_length (l : List ℤ) : (npdiffZ l).length = l.length - 1 := by
  simp [npdiffZ, List.length_zip, List.length_tail]

theorem npdiff_length (l : List ℚ) : (npdiff l).length = l.length - 1 := by
  simp [npdiff, List.length_zip, List.length_tail]

theorem npdiffZ_getD (l : List ℤ) (j : ℕ) (hj : j + 1 < l.length) :
    (npdiffZ l).getD j 0 = l.getD (j + 1) 0 - l.getD j 0 := by
  induction l generalizing j with
  | nil => simp at hj
  | cons a t ih =>
    cases t with
    | nil => simp at hj
    | cons b t2 =>
      cases j with
      | zero => rfl
      | succ j2 =>
        have hstep : npdiffZ (a :: b :: t2) = (b - a) :: npdiffZ (b :: t2) := rfl
        rw [hstep]
        simp only [List.getD_cons_succ]
        exact ih j2 (by simp at hj ⊢; omega)

theorem map_pysign_getD (l : List ℚ) (j : ℕ) (hj : j < l.length) :
    (l.map pysign).getD j 0 = pysign (l.getD j 0) := by
  induction l generalizing j with
  | nil => simp at hj
  | cons a t ih =>
    cases j with
    | zero => rfl
    | succ j2 =>
      simp only [List.map_cons, List.getD_cons_succ]
      exact ih j2 (by simp at hj ⊢; omega)

theorem pysign_sub_eq_neg_two (a b : ℚ) : pysign b - pysign a = -2 ↔ 0 < a ∧ b < 0 := by
  constructor
  · intro h
    by_cases hb : b < 0 <;> by_cases hb0 : b = 0 <;> by_cases ha : a < 0 <;>
      by_cases ha0 : a = 0 <;> simp [pysign, hb, hb0, ha, ha0] at h ⊢ <;>
      first
        | exact (not_lt.1 ha).lt_of_ne (Ne.symm ha0)
        | norm_num at h
  · rintro ⟨ha, hb⟩
    have h1 : ¬a < 0 := not_lt.2 ha.le
    have h2 : a ≠ 0 := ne_of_gt ha
    simp [pysign, hb, h1, h2]

theorem pysign_sub_eq_two (a b : ℚ) : pysign b - pysign a = 2 ↔ a < 0 ∧ 0 < b := by
  constructor
  · intro h
    by_cases hb : b < 0 <;> by_cases hb0 : b = 0 <;> by_cases ha : a < 0 <;>
      by_cases ha0 : a = 0 <;> simp [pysign, hb, hb0, ha, ha0] at h ⊢ <;>
      first
        | exact (not_lt.1 hb).lt_of_ne (Ne.symm hb0)
        | norm_num at h
  · rintro ⟨ha, hb⟩
    have h1 : ¬b < 0 := not_lt.2 hb.le
    have h2 : b ≠ 0 := ne_of_gt hb
    simp [pysign, ha, h1, h2]

theorem filter_shift (p q : ℕ → Bool) (n : ℕ) (hp0 : p 0 = false)
    (hpq : ∀ j, p (j + 1) = q j) :
    (List.range (n + 1)).filter p = ((List.range n).filter q).map (fun j => j + 1) := by
  rw [List.range_succ_eq_map, List.filter_cons, hp0]
  simp only [Bool.false_eq_true, if_false]
  rw [List.filter_map]
  have hfun : (p ∘ Nat.succ) = q := by
    funext j
    exact hpq j
  rw [hfun]

theorem frequency_resolution_head (freq : List ℚ) (h : 1 < freq.length) :
    (frequency_resolution freq).getD 0 0 = ratAbs (freq.getD 1 0 - freq.getD 0 0) := by
  match freq with
  | [] => simp at h
  | [f0] => simp at h
  | f0 :: f1 :: rest =>
    unfold frequency_resolution
    rw [if_pos (by simp)]
    rfl

theorem signchange_maxima (E : List ℚ) :
    (argwhereEq (-2) (npdiffZ (E.map pysign))).map (fun j => j + 1) = claimMaxima E := by
  cases E with
  | nil => rfl
  | cons e0 E2 =>
    unfold claimMaxima argwhereEq
    rw [npdiffZ_length]
    simp only [List.length_map, List.length_cons, Nat.add_sub_cancel]
    rw [filter_shift _
      (fun j => decide (0 < j + 1) && decide (0 < (e0 :: E2).getD (j + 1 - 1) 0)
        && decide ((e0 :: E2).getD (j + 1) 0 < 0)) E2.length (by simp) (fun j => rfl)]
    refine congrArg _ (List.filter_congr ?_)
    intro j hj
    simp only [List.mem_range] at hj
    have hD := npdiffZ_getD ((e0 :: E2).map pysign) j (by simp; omega)
    rw [map_pysign_getD _ _ (by simp; omega), map_pysign_getD _ _ (by simp; omega)] at hD
    show decide ((npdiffZ ((e0 :: E2).map pysign)).getD j 0 = -2) = _
    rw [hD]
    simp [pysign_sub_eq_neg_two, Bool.decide_and, Nat.add_sub_cancel]

theorem signchange_minima (E : List ℚ) :
    (argwhereEq 2 (npdiffZ (E.map pysign))).map (fun j => j + 1) = claimMinima E := by
  cases E with
  | nil => rfl
  | cons e0 E2 =>
    unfold claimMinima argwhereEq
    rw [npdiffZ_length]
    simp only [List.length_map, List.length_cons, Nat.add_sub_cancel]
    rw [filter_shift _
      (fun j => decide (0 < j + 1) && decide ((e0 :: E2).getD (j + 1 - 1) 0 < 0)
        && decide (0 < (e0 :: E2).getD (j + 1) 0)) E2.length (by simp) (fun j => rfl)]
    refine congrArg _ (List.filter_congr ?_)
    intro j hj
    simp only [List.mem_range] at hj
    have hD := npdiffZ_getD ((e0 :: E2).map pysign) j (by simp; omega)
    rw [map_pysign_getD _ _ (by simp; omega), map_pysign_getD _ _ (by simp; omega)] at hD
    show decide ((npdiffZ ((e0 :: E2).map pysign)).getD j 0 = 2) = _
    rw [hD]
    simp [pysign_sub_eq_two, Bool.decide_and, Nat.add_sub_cancel]

/-- **C8 (amended).**  For every direction-summed profile with more than one
frequency bin, `inflection` behaves exactly as the amended description says:
it smooths with the (unnormalised) Hamming-weighted moving sum of width
`int(dfres / Δfreq)` (truncation) exactly when that width exceeds 1, zeroes
samples that are negative after smoothing or whose frequency is below
`fmin`, and reports maxima/minima exactly at the direct sign changes of the
discrete derivative.  The equivalence is parametric in the window
function. -/
theorem claim_C8_inflection_spec (window : ℕ → List ℚ) (spectrum : List (List ℚ))
    (freq : List ℚ) (dfres fmin : ℚ) (hlen : 1 < freq.length) :
    inflection window spectrum freq dfres fmin
      = inflectionSpec window spectrum freq dfres fmin := by
  unfold inflection inflectionSpec
  rw [if_pos hlen, if_pos hlen]
  simp only [frequency_resolution_head freq hlen]
  exact Prod.ext (signchange_maxima _) (signchange_minima _)

/-- Witness for the amended C8 at a concrete two-bin profile. -/
theorem claim_C8_inflection_spec_witness :
    inflection hammingQ [[1], [2]] [1 / 20, 3 / 50] (1 / 100) (1 / 20)
      = inflectionSpec hammingQ [[1], [2]] [1 / 20, 3 / 50] (1 / 100) (1 / 20) :=
  claim_C8_inflection_spec hammingQ [[1], [2]] [1 / 20, 3 / 50] (1 / 100) (1 / 20) (by decide)

set_option maxRecDepth 4000 in
/-- **C8 counterexample.**  With `Δfreq = 0.006`, `dfres = 0.01` the claimed
width `round(0.01 / 0.006) = 2` exceeds 1, so the claim's smoothing (a
normalised Hamming-weighted moving average) flattens the profile
`[1, 3, 1, 3, 1, 1]` and reports no extrema; the code's `int()` truncation
gives width 1, no smoothing happens, and the raw profile's extrema
`([1, 3], [2])` are reported. -/
theorem claim_C8_counterexample :
    inflection hammingQ [[1], [3], [1], [3], [1], [1]]
        [5 / 100, 56 / 1000, 62 / 1000, 68 / 1000, 74 / 1000, 8 / 100] (1 / 100) (1 / 20)
      = ([1, 3], [2])
    ∧ inflectionClaimRound hammingQ [[1], [3], [1], [3], [1], [1]]
        [5 / 100, 56 / 1000, 62 / 1000, 68 / 1000, 74 / 1000, 8 / 100] (1 / 100) (1 / 20)
      = ([], []) := by
  constructor <;> with_unfolding_all rfl

end Watershed

-- sanity examples (kept: they are closed facts about the embedding)
example : Watershed.ptnghbAt 1 1 0 = [0, 0] := by decide
example : Watershed.ptnghbAt 1 2 0 = [1, 1] := by decide
example : Watershed.ptnghbAt 2 2 0 = [2, 1, 1, 3, 3] := by decide
